import Mathlib

/-!
Verification of the NOAA APT satellite-signal decoding lesson repository.

The repository ships a browser front end (`pyodide_worker.js` and the web UI
script) together with a Python decoding core (`signal_preprocessor.py`,
`image_decoder.py`, `student_decoder.py`).  The JavaScript sources are embedded
here directly.  The Python core is not part of the available sources (only its
callers are), so the four core stages (`demodulate`, `find_sync_marks`,
`decode_lines`, `assemble_image`) are modelled from the design specification
and all statements about them are relative to that model.
-/

/-! ## Part 1: the web UI path helper (`prebakedNpyPathForWav`)

Embedded from the web UI source:
```
function prebakedNpyPathForWav(wavPath) {
  const file = String(wavPath || '').split('/').pop() || '';
  const base = file.replace(/\.wav$/i, '');
  return `signals/preprocessed/.../{base}.normalized.npy`;
}
```
JavaScript strings are modelled as `List Char` wrapped in `String`; a possibly
`null`/`undefined` argument is modelled as `Option String`.
-/

/-- JavaScript `String(wavPath || '')`: `null`, `undefined` and the empty
string all coerce to the empty string; any other string is unchanged. -/
def jsStringOrEmpty : Option String → String
  | none => ""
  | some s => s

/-- JavaScript `s.split('/')` on a character list: splits at every `'/'`,
keeping empty fields (exactly the ECMAScript behavior for a one-character
separator). -/
def splitSlash : List Char → List (List Char)
  | [] => [[]]
  | c :: cs =>
    match splitSlash cs with
    | [] => [[]]
    | h :: t => if c = '/' then [] :: h :: t else (c :: h) :: t

/-- JavaScript `arr.pop()` on the non-empty result of `split`: the last
field (the `|| ''` in the source is dead code since `split` never returns
an empty array). -/
def splitSlashPop (l : List Char) : List Char :=
  (splitSlash l).getLastD []

/-- JavaScript `file.replace(/\.wav$/i, '')`: removes one trailing
case-insensitive `".wav"`, otherwise leaves the list unchanged. -/
def stripWavSuffix (l : List Char) : List Char :=
  if (l.reverse.take 4).map Char.toLower = ['v', 'a', 'w', '.'] then
    l.take (l.length - 4)
  else l

/-- Embedding of `prebakedNpyPathForWav` from the web UI source. -/
def prebakedNpyPathForWav (wavPath : Option String) : String :=
  let file := splitSlashPop (jsStringOrEmpty wavPath).toList
  let base := stripWavSuffix file
  "signals/preprocessed/" ++ String.mk base ++ ".normalized.npy"

/-- Spec-side description of the claim: the substring of the input after the
last `'/'` (the whole input when it has no `'/'`). -/
def afterLastSlash : List Char → List Char
  | [] => []
  | c :: cs =>
    if '/' ∈ cs then afterLastSlash cs
    else if c = '/' then cs
    else c :: cs

theorem splitSlash_ne_nil (l : List Char) : splitSlash l ≠ [] := by
  cases l with
  | nil => simp [splitSlash]
  | cons c cs =>
    simp only [splitSlash]
    cases splitSlash cs with
    | nil => simp
    | cons h t =>
      by_cases hc : c = '/' <;> simp [hc]

theorem afterLastSlash_of_not_mem (l : List Char) (h : '/' ∉ l) :
    afterLastSlash l = l := by
  induction l with
  | nil => rfl
  | cons c cs ih =>
    have hc : c ≠ '/' := fun hh => h (hh ▸ List.mem_cons_self c cs)
    have hcs : '/' ∉ cs := fun hh => h (List.mem_cons_of_mem c hh)
    simp [afterLastSlash, hcs, hc]

theorem splitSlash_cons (c : Char) (cs h0 : List Char) (t0 : List (List Char))
    (hcs : splitSlash cs = h0 :: t0) :
    splitSlash (c :: cs) = if c = '/' then [] :: h0 :: t0 else (c :: h0) :: t0 := by
  simp only [splitSlash, hcs]

theorem splitSlash_length (l : List Char) :
    (splitSlash l).length = l.count '/' + 1 := by
  induction l with
  | nil => simp [splitSlash]
  | cons c cs ih =>
    rcases hcs : splitSlash cs with _ | ⟨h0, t0⟩
    · exact absurd hcs (splitSlash_ne_nil cs)
    · rw [hcs] at ih
      by_cases hc : c = '/'
      · rw [splitSlash_cons c cs h0 t0 hcs, if_pos hc]
        simp only [List.length_cons] at ih ⊢
        rw [List.count_cons]
        simp [hc, ih]
      · rw [splitSlash_cons c cs h0 t0 hcs, if_neg hc]
        simp only [List.length_cons] at ih ⊢
        rw [List.count_cons]
        simp [hc, ih]

theorem splitSlashPop_eq_afterLastSlash (l : List Char) :
    splitSlashPop l = afterLastSlash l := by
  induction l with
  | nil => rfl
  | cons c cs ih =>
    rcases hcs : splitSlash cs with _ | ⟨h0, t0⟩
    · exact absurd hcs (splitSlash_ne_nil cs)
    · by_cases hc : c = '/'
      · -- the split starts a fresh empty field; the last field is that of `cs`
        have hstep : splitSlashPop (c :: cs) = splitSlashPop cs := by
          unfold splitSlashPop
          rw [splitSlash_cons c cs h0 t0 hcs, if_pos hc, hcs]
          simp [List.getLastD_cons]
        rw [hstep, ih]
        by_cases hmem : '/' ∈ cs
        · simp [afterLastSlash, hmem, hc]
        · simp [afterLastSlash, hmem, hc, afterLastSlash_of_not_mem cs hmem]
      · rw [splitSlashPop] at ih ⊢
        rw [splitSlash_cons c cs h0 t0 hcs, if_neg hc]
        rcases ht0 : t0 with _ | ⟨x, xs⟩
        · -- single field: no slash in `cs` at all
          subst ht0
          have hcount : cs.count '/' = 0 := by
            have := splitSlash_length cs
            rw [hcs] at this
            simp at this
            omega
          have hmem : '/' ∉ cs := by
            simpa using List.count_eq_zero.mp hcount
          rw [hcs] at ih
          simp only [List.getLastD_cons, List.getLastD_nil] at ih ⊢
          rw [afterLastSlash, if_neg hmem, if_neg hc, ih,
            afterLastSlash_of_not_mem cs hmem]
        · subst ht0
          rw [hcs] at ih
          rw [List.getLastD_cons, List.getLastD_cons] at ih ⊢
          rw [ih]
          -- `cs` does contain a slash, since its split has ≥ 2 fields
          have hmem : '/' ∈ cs := by
            have hlen := splitSlash_length cs
            rw [hcs] at hlen
            simp only [List.length_cons] at hlen
            have hpos : 0 < cs.count '/' := by omega
            exact List.count_pos_iff.mp hpos
          simp [afterLastSlash, hmem, hc]

/-- C10: `prebakedNpyPathForWav` returns `"signals/preprocessed/"`, then the
substring of the input after the last `'/'` with one trailing case-insensitive
`".wav"` suffix removed (unchanged when there is no such suffix), then
`".normalized.npy"`; for `null`/`undefined`/empty input the middle part is
empty, giving `"signals/preprocessed/.normalized.npy"`. -/
theorem prebakedNpyPathForWav_spec :
    (∀ w : Option String, prebakedNpyPathForWav w =
      "signals/preprocessed/" ++
        String.mk (stripWavSuffix (afterLastSlash (jsStringOrEmpty w).toList)) ++
        ".normalized.npy")
    ∧ prebakedNpyPathForWav none = "signals/preprocessed/.normalized.npy"
    ∧ prebakedNpyPathForWav (some "") = "signals/preprocessed/.normalized.npy" := by
  refine ⟨fun w => ?_, by decide, by decide⟩
  unfold prebakedNpyPathForWav
  rw [splitSlashPop_eq_afterLastSlash]

/-! ## Part 2: the Pyodide worker message handler (`pyodide_worker.js`)

Embedded from `self.onmessage` in `src/pyodide_worker.js`.  The handler runs
after initialization; once `ready` is true it dispatches on `msg.type`:
each of the four recognized request types runs its effectful body (Pyodide
calls, `fetch`, filesystem writes — modelled by an outcome oracle, since the
Python runtime is outside the embedding) and posts exactly one `*_done`
message carrying the request id, the `catch` posts one `error` message with
the id and `phase: msg.type`, and an unrecognized type falls through the
dispatch without posting anything. -/

/-- The `msg.type` strings the worker dispatches on; `other` stands for any
unrecognized type (including a missing one). -/
inductive ReqType where
  | load_prebaked_npy
  | set_decoder_source
  | decode
  | reload_modules
  | other
deriving DecidableEq

/-- An incoming `postMessage` event's data, as read by the handler. -/
structure WorkerMsg where
  type : ReqType
  id : Nat

/-- Messages the handler posts back (replies only; init beacons are sent
before `onmessage` runs and are not modelled). -/
inductive WorkerReply where
  | prebaked_load_done (id : Nat) (normalized : List Nat)
  | set_decoder_done (id : Nat)
  | decode_done (id : Nat) (imageBase64 : String)
  | reload_done (id : Nat)
  | error (id : Nat) (phase : ReqType) (message : String)
deriving DecidableEq

/-- Outcomes of the effectful bodies of the four branches (Pyodide runs,
fetches, FS writes): `Except.error` models a thrown JavaScript exception. -/
structure WorkerEffects where
  npyLoad : Except String (List Nat)
  setSource : Except String Unit
  decodeRun : Except String String
  reloadRun : Except String Unit

/-- The id carried by a reply. -/
def WorkerReply.replyId : WorkerReply → Nat
  | .prebaked_load_done i _ => i
  | .set_decoder_done i => i
  | .decode_done i _ => i
  | .reload_done i => i
  | .error i _ _ => i

/-- Whether a reply is the catch-branch `error` message. -/
def WorkerReply.isError : WorkerReply → Bool
  | .error _ _ _ => true
  | _ => false

/-- The `phase` field of an `error` reply. -/
def WorkerReply.errorPhase : WorkerReply → Option ReqType
  | .error _ p _ => some p
  | _ => none

/-- Embedding of `self.onmessage`: the list of messages posted in response to
one received message (in posting order).  Before `ready` nothing is posted by
the dispatch itself (the handler awaits init and returns on failure). -/
def workerOnMessage (ready : Bool) (eff : WorkerEffects) (m : WorkerMsg) :
    List WorkerReply :=
  if ¬ ready then []
  else
    match m.type with
    | .load_prebaked_npy =>
      match eff.npyLoad with
      | .ok xs => [.prebaked_load_done m.id xs]
      | .error e => [.error m.id .load_prebaked_npy e]
    | .set_decoder_source =>
      match eff.setSource with
      | .ok _ => [.set_decoder_done m.id]
      | .error e => [.error m.id .set_decoder_source e]
    | .decode =>
      match eff.decodeRun with
      | .ok b64 => [.decode_done m.id b64]
      | .error e => [.error m.id .decode e]
    | .reload_modules =>
      match eff.reloadRun with
      | .ok _ => [.reload_done m.id]
      | .error e => [.error m.id .reload_modules e]
    | .other => []

/-- C9: once init has succeeded, each of the four recognized request types
produces exactly one reply carrying the request's id — the matching `*_done`
message on success, or an `error` message whose `phase` is the request type on
a thrown exception — and any other message type produces no reply. -/
theorem workerOnMessage_one_reply (eff : WorkerEffects) (m : WorkerMsg) :
    (m.type ≠ .other →
      ∃ r : WorkerReply, workerOnMessage true eff m = [r] ∧
        r.replyId = m.id ∧
        (r.isError = true → r.errorPhase = some m.type) ∧
        (r.isError = false →
          (m.type = .load_prebaked_npy →
            ∃ xs, eff.npyLoad = .ok xs ∧ r = .prebaked_load_done m.id xs) ∧
          (m.type = .set_decoder_source → r = .set_decoder_done m.id) ∧
          (m.type = .decode →
            ∃ b, eff.decodeRun = .ok b ∧ r = .decode_done m.id b) ∧
          (m.type = .reload_modules → r = .reload_done m.id)))
    ∧ (m.type = .other → workerOnMessage true eff m = []) := by
  constructor
  · intro hne
    cases htym : m.type with
    | other => exact absurd htym hne
    | load_prebaked_npy =>
      cases hl : eff.npyLoad with
      | ok xs =>
        refine ⟨.prebaked_load_done m.id xs, ?_, rfl, by simp [WorkerReply.isError], ?_⟩
        · simp [workerOnMessage, htym, hl]
        · intro _
          refine ⟨fun _ => ⟨xs, rfl, rfl⟩, ?_, ?_, ?_⟩ <;> intro hh <;> simp [htym] at hh
      | error e =>
        refine ⟨.error m.id .load_prebaked_npy e, ?_, rfl, ?_, ?_⟩
        · simp [workerOnMessage, htym, hl]
        · intro _; simp [WorkerReply.errorPhase, htym]
        · intro hh; simp [WorkerReply.isError] at hh
    | set_decoder_source =>
      cases hl : eff.setSource with
      | ok u =>
        refine ⟨.set_decoder_done m.id, ?_, rfl, by simp [WorkerReply.isError], ?_⟩
        · simp [workerOnMessage, htym, hl]
        · intro _
          refine ⟨?_, fun _ => rfl, ?_, ?_⟩ <;> intro hh <;> simp [htym] at hh
      | error e =>
        refine ⟨.error m.id .set_decoder_source e, ?_, rfl, ?_, ?_⟩
        · simp [workerOnMessage, htym, hl]
        · intro _; simp [WorkerReply.errorPhase, htym]
        · intro hh; simp [WorkerReply.isError] at hh
    | decode =>
      cases hl : eff.decodeRun with
      | ok b =>
        refine ⟨.decode_done m.id b, ?_, rfl, by simp [WorkerReply.isError], ?_⟩
        · simp [workerOnMessage, htym, hl]
        · intro _
          refine ⟨?_, ?_, fun _ => ⟨b, rfl, rfl⟩, ?_⟩ <;> intro hh <;> simp [htym] at hh
      | error e =>
        refine ⟨.error m.id .decode e, ?_, rfl, ?_, ?_⟩
        · simp [workerOnMessage, htym, hl]
        · intro _; simp [WorkerReply.errorPhase, htym]
        · intro hh; simp [WorkerReply.isError] at hh
    | reload_modules =>
      cases hl : eff.reloadRun with
      | ok u =>
        refine ⟨.reload_done m.id, ?_, rfl, by simp [WorkerReply.isError], ?_⟩
        · simp [workerOnMessage, htym, hl]
        · intro _
          refine ⟨?_, ?_, ?_, fun _ => rfl⟩ <;> intro hh <;> simp [htym] at hh
      | error e =>
        refine ⟨.error m.id .reload_modules e, ?_, rfl, ?_, ?_⟩
        · simp [workerOnMessage, htym, hl]
        · intro _; simp [WorkerReply.errorPhase, htym]
        · intro hh; simp [WorkerReply.isError] at hh
  · intro hty
    simp [workerOnMessage, hty]

/-- C9 witness: a concrete `decode` request with a successful Python run gets
exactly the one `decode_done` reply with its id, and an unknown message type
gets none. -/
theorem workerOnMessage_one_reply_witness :
    (∃ r : WorkerReply,
      workerOnMessage true ⟨.ok [1, 2], .ok (), .ok "QUJD", .ok ()⟩ ⟨.decode, 7⟩ = [r] ∧
      r.replyId = 7) ∧
    workerOnMessage true ⟨.ok [1, 2], .ok (), .ok "QUJD", .ok ()⟩ ⟨.other, 8⟩ = [] := by
  have h := workerOnMessage_one_reply ⟨.ok [1, 2], .ok (), .ok "QUJD", .ok ()⟩
    ⟨.decode, 7⟩
  obtain ⟨r, hr, hid, -, -⟩ := h.1 (by decide)
  exact ⟨⟨r, hr, hid⟩,
    (workerOnMessage_one_reply ⟨.ok [1, 2], .ok (), .ok "QUJD", .ok ()⟩
      ⟨.other, 8⟩).2 rfl⟩

/-! ## Part 3: the decoding core, modelled from the spec

The Python files `signal_preprocessor.py` and `image_decoder.py` are not under
the available sources (the worker only fetches and calls them), so the four
core stages are modelled from the design specification (sections 3, 4, 7). -/

/-- Modelled from the spec: a `NormalizedSignal` — intensity samples at
4160 Hz, addressed by index.  `sample` is total; indices `≥ len` are never
read by the stages below. -/
structure Signal where
  len : Nat
  sample : Nat → Nat

/-- Modelled from the spec: `SyncMark.kind` (`SYNC_A | SYNC_B`). -/
inductive SyncKind where
  | syncA
  | syncB
deriving DecidableEq

/-- Modelled from the spec: a `SyncMark` — offset into the signal, kind, and
correlation confidence in `[0,1]`. -/
structure SyncMark where
  offset : Nat
  kind : SyncKind
  score : ℚ
deriving DecidableEq

/-- APT line layout (spec section 4.3): field lengths in samples. -/
def syncALen : Nat := 39
def spaceALen : Nat := 47
def videoLen : Nat := 909
def telemetryLen : Nat := 45
def syncBLen : Nat := 39
def spaceBLen : Nat := 47

/-- One full APT line: 2080 samples at 4160 Hz. -/
def lineLen : Nat := 2080

/-- Start offsets of the fields inside a line, as running sums of the layout
table. -/
def videoAStart : Nat := syncALen + spaceALen
def telemetryAStart : Nat := videoAStart + videoLen
def syncBStart : Nat := telemetryAStart + telemetryLen
def spaceBStart : Nat := syncBStart + syncBLen
def videoBStart : Nat := spaceBStart + spaceBLen
def telemetryBStart : Nat := videoBStart + videoLen

/-- A contiguous slice of the signal, materialized as a list. -/
def sliceSig (sig : Signal) (start n : Nat) : List Nat :=
  (List.range n).map (fun i => sig.sample (start + i))

/-- Average of a 45-sample telemetry segment, as a rational. -/
def telemetryAvg (sig : Signal) (start : Nat) : ℚ :=
  ((sliceSig sig start telemetryLen).map (fun v => (v : ℚ))).sum / telemetryLen

/-- Modelled from the spec: the output of `decode_lines` — per-line channel
rows plus per-line telemetry segment averages. -/
structure DecodedLines where
  channelA : List (List Nat)
  channelB : List (List Nat)
  telemetryA : List ℚ
  telemetryB : List ℚ
deriving DecidableEq

/-- Whether a full 2080-sample line starting at `off` fits inside the
signal (lines that do not fit are dropped, not padded). -/
def lineFits (sig : Signal) (off : Nat) : Bool :=
  decide (off + lineLen ≤ sig.len)

/-- Modelled from the spec: `decode_lines(signal, sync_marks)` (missing
`image_decoder.py`).  For each mark of kind `SYNC_A` whose 2080 following
samples fit, slice the line per the layout table and append the video fields
as new rows (in mark order); record the telemetry segment averages. -/
def decode_lines (sig : Signal) : List SyncMark → DecodedLines
  | [] => ⟨[], [], [], []⟩
  | m :: rest =>
    let r := decode_lines sig rest
    if m.kind = .syncA && lineFits sig m.offset then
      ⟨sliceSig sig (m.offset + videoAStart) videoLen :: r.channelA,
       sliceSig sig (m.offset + videoBStart) videoLen :: r.channelB,
       telemetryAvg sig (m.offset + telemetryAStart) :: r.telemetryA,
       telemetryAvg sig (m.offset + telemetryBStart) :: r.telemetryB⟩
    else r

/-- The marks that contribute a decoded line: kind `SYNC_A` and a full line
remaining. -/
def contributing (sig : Signal) (marks : List SyncMark) : List SyncMark :=
  marks.filter (fun m => m.kind = .syncA && lineFits sig m.offset)

theorem contributing_cons (sig : Signal) (m : SyncMark) (rest : List SyncMark) :
    contributing sig (m :: rest) =
      if (m.kind = SyncKind.syncA && lineFits sig m.offset) = true then
        m :: contributing sig rest
      else contributing sig rest := by
  simp [contributing, List.filter_cons]

theorem decode_lines_channelA (sig : Signal) (marks : List SyncMark) :
    (decode_lines sig marks).channelA =
      (contributing sig marks).map
        (fun m => sliceSig sig (m.offset + videoAStart) videoLen) := by
  induction marks with
  | nil => rfl
  | cons m rest ih =>
    by_cases h : (m.kind = SyncKind.syncA && lineFits sig m.offset) = true
    · simp [decode_lines, contributing_cons, h, ih]
    · simp [decode_lines, contributing_cons, h, ih]

theorem decode_lines_channelB (sig : Signal) (marks : List SyncMark) :
    (decode_lines sig marks).channelB =
      (contributing sig marks).map
        (fun m => sliceSig sig (m.offset + videoBStart) videoLen) := by
  induction marks with
  | nil => rfl
  | cons m rest ih =>
    by_cases h : (m.kind = SyncKind.syncA && lineFits sig m.offset) = true
    · simp [decode_lines, contributing_cons, h, ih]
    · simp [decode_lines, contributing_cons, h, ih]

theorem decode_lines_telemetryA (sig : Signal) (marks : List SyncMark) :
    (decode_lines sig marks).telemetryA =
      (contributing sig marks).map
        (fun m => telemetryAvg sig (m.offset + telemetryAStart)) := by
  induction marks with
  | nil => rfl
  | cons m rest ih =>
    by_cases h : (m.kind = SyncKind.syncA && lineFits sig m.offset) = true
    · simp [decode_lines, contributing_cons, h, ih]
    · simp [decode_lines, contributing_cons, h, ih]

theorem decode_lines_telemetryB (sig : Signal) (marks : List SyncMark) :
    (decode_lines sig marks).telemetryB =
      (contributing sig marks).map
        (fun m => telemetryAvg sig (m.offset + telemetryBStart)) := by
  induction marks with
  | nil => rfl
  | cons m rest ih =>
    by_cases h : (m.kind = SyncKind.syncA && lineFits sig m.offset) = true
    · simp [decode_lines, contributing_cons, h, ih]
    · simp [decode_lines, contributing_cons, h, ih]

/-- C1: for every `SYNC_A` mark, `decode_lines` slices the 2080 samples that
follow the mark, partitioned in table order (Sync A 39, Space A 47, Video A
909, Telemetry A 45, Sync B 39, Space B 47, Video B 909, Telemetry B 45); the
909-sample Video A / Video B fields become one new row each of Channel A /
Channel B in mark order, and a mark with fewer than 2080 samples remaining
contributes no row. -/
theorem decode_lines_layout (sig : Signal) (marks : List SyncMark) :
    (decode_lines sig marks).channelA =
      (marks.filter
          (fun m => m.kind = SyncKind.syncA && decide (m.offset + lineLen ≤ sig.len))).map
        (fun m => sliceSig sig (m.offset + (syncALen + spaceALen)) videoLen)
    ∧ (decode_lines sig marks).channelB =
      (marks.filter
          (fun m => m.kind = SyncKind.syncA && decide (m.offset + lineLen ≤ sig.len))).map
        (fun m => sliceSig sig
          (m.offset + (syncALen + spaceALen + videoLen + telemetryLen + syncBLen + spaceBLen))
          videoLen)
    ∧ syncALen + spaceALen + videoLen + telemetryLen
        + syncBLen + spaceBLen + videoLen + telemetryLen = lineLen := by
  exact ⟨decode_lines_channelA sig marks, decode_lines_channelB sig marks, by decide⟩

/-- Modelled from the spec: `channel_selection` configuration values. -/
inductive ChannelSel where
  | both
  | onlyA
  | onlyB
deriving DecidableEq

/-- Modelled from the spec: recognized `assemble_image` options with their
defaults (`channel_selection = BOTH`, `apply_calibration = false`,
`contrast_stretch = false`). -/
structure ImgOptions where
  channel_selection : ChannelSel
  apply_calibration : Bool
  contrast_stretch : Bool

/-- The default configuration. -/
def defaultOptions : ImgOptions := ⟨.both, false, false⟩

/-- Clamp an integer into `[0,255]` (clamp, never wrap). -/
def clamp255 (z : ℤ) : Nat := (min 255 (max 0 z)).toNat

/-- Map a value through the linear transform sending `[lo, hi]` to `[0,255]`,
rounding and clamping; a degenerate range (the division that would produce a
non-finite value) yields neutral mid-gray 128. -/
def normalizeSample (lo hi v : ℚ) : Nat :=
  if hi ≤ lo then 128 else clamp255 (round ((v - lo) * 255 / (hi - lo)))

/-- Average of a list of rationals (0 for the empty list). -/
def avgQ (xs : List ℚ) : ℚ := if xs.length = 0 then 0 else xs.sum / xs.length

/-- Modelled from the spec: per-channel calibration curve — telemetry line
averages accumulated per wedge-step index 0–15, advancing one step per line
and wrapping modulo 16. -/
def wedgeCurve (tel : List ℚ) : List ℚ :=
  (List.range 16).map (fun w =>
    avgQ ((tel.enum.filter (fun p => p.1 % 16 = w)).map (fun p => p.2)))

/-- Minimum of a list of rationals (0 for the empty list). -/
def listMinQ : List ℚ → ℚ
  | [] => 0
  | x :: xs => xs.foldl min x

/-- Maximum of a list of rationals (0 for the empty list). -/
def listMaxQ : List ℚ → ℚ
  | [] => 0
  | x :: xs => xs.foldl max x

/-- Modelled from the spec: optional calibration — a linear transform derived
from the telemetry wedge curve, output remaining 8-bit grayscale. -/
def calibrateRows (tel : List ℚ) (rows : List (List Nat)) : List (List Nat) :=
  let curve := wedgeCurve tel
  rows.map (fun r => r.map (fun v => normalizeSample (listMinQ curve) (listMaxQ curve) (v : ℚ)))

/-- Modelled from the spec: optional contrast stretch using the observed
min/max. -/
def stretchRows (rows : List (List Nat)) : List (List Nat) :=
  let flat := (rows.flatten).map (fun v => (v : ℚ))
  rows.map (fun r => r.map (fun v => normalizeSample (listMinQ flat) (listMaxQ flat) (v : ℚ)))

/-- Modelled from the spec: the final `Image` — pixel raster plus metadata. -/
structure Image where
  pixels : List (List Nat)
  lineCount : Nat
  calibrated : Bool
  layout : ChannelSel

/-- Modelled from the spec: `assemble_image(ChannelA, ChannelB, Telemetry,
options)` (missing `image_decoder.py`).  Default: concatenate the channels
horizontally, one row per decoded line; gap fields are omitted (the configured
alternative of rendering them is not part of the default layout). -/
def assemble_image (chA chB : List (List Nat)) (telA telB : List ℚ)
    (opts : ImgOptions) : Image :=
  let cA := if opts.apply_calibration then calibrateRows telA chA else chA
  let cB := if opts.apply_calibration then calibrateRows telB chB else chB
  let rows0 :=
    match opts.channel_selection with
    | .both => List.zipWith (fun a b => a ++ b) cA cB
    | .onlyA => cA
    | .onlyB => cB
  let rows1 := if opts.contrast_stretch then stretchRows rows0 else rows0
  ⟨rows1, rows1.length, opts.apply_calibration, opts.channel_selection⟩

/-- C8: with default options `assemble_image` concatenates Channel A and
Channel B horizontally: one output row per decoded line, height = number of
decoded lines, width = 909 + 909 (gap fields omitted by default). -/
theorem assemble_image_default (chA chB : List (List Nat)) (telA telB : List ℚ)
    (hlen : chA.length = chB.length)
    (hA : ∀ r ∈ chA, r.length = videoLen)
    (hB : ∀ r ∈ chB, r.length = videoLen) :
    (assemble_image chA chB telA telB defaultOptions).pixels.length = chA.length
    ∧ (∀ r ∈ (assemble_image chA chB telA telB defaultOptions).pixels,
        r.length = 909 + 909)
    ∧ (∀ i, i < chA.length →
        (assemble_image chA chB telA telB defaultOptions).pixels.getD i [] =
          chA.getD i [] ++ chB.getD i [])
    ∧ (assemble_image chA chB telA telB defaultOptions).lineCount = chA.length := by
  have hpix : (assemble_image chA chB telA telB defaultOptions).pixels =
      List.zipWith (fun a b => a ++ b) chA chB := rfl
  have hplen : (List.zipWith (fun a b : List Nat => a ++ b) chA chB).length
      = chA.length := by
    rw [List.length_zipWith, hlen, Nat.min_self]
  refine ⟨by rw [hpix, hplen], ?_, ?_, by
    show (List.zipWith (fun a b : List Nat => a ++ b) chA chB).length = chA.length
    exact hplen⟩
  · intro r hr
    rw [hpix] at hr
    obtain ⟨i, hi, hget⟩ := List.mem_iff_getElem.mp hr
    rw [hplen] at hi
    have hiB : i < chB.length := hlen ▸ hi
    rw [List.getElem_zipWith] at hget
    rw [← hget, List.length_append,
      hA _ (List.getElem_mem hi), hB _ (List.getElem_mem hiB)]
    rfl
  · intro i hi
    have hiB : i < chB.length := hlen ▸ hi
    rw [hpix]
    rw [List.getD_eq_getElem _ _ (by rw [hplen]; exact hi)]
    rw [List.getElem_zipWith,
      List.getD_eq_getElem _ _ hi, List.getD_eq_getElem _ _ hiB]

/-- C8 witness: a one-line pair of 909-wide channels assembles to a single
1818-wide row. -/
theorem assemble_image_default_witness :
    (assemble_image [List.replicate 909 3] [List.replicate 909 4] [] []
        defaultOptions).pixels.length = 1
    ∧ (∀ r ∈ (assemble_image [List.replicate 909 3] [List.replicate 909 4] [] []
        defaultOptions).pixels, r.length = 909 + 909) := by
  have h := assemble_image_default [List.replicate 909 3] [List.replicate 909 4]
    [] [] rfl
    (by intro r hr; rw [List.mem_singleton] at hr; rw [hr, List.length_replicate]; rfl)
    (by intro r hr; rw [List.mem_singleton] at hr; rw [hr, List.length_replicate]; rfl)
  exact ⟨h.1, h.2.1⟩

/-- Canonical square sync waveform sample (1040 Hz square wave at 4160 Hz,
alternating groups of 4 high / 4 low samples). -/
def syncAWave (i : Nat) : Nat := if i % 8 < 4 then 255 else 0

/-- Modelled from the spec: one synthetic APT line encoding a pair of
909-sample video rows, laid out per the frame table (sync patterns, fixed
reference spaces, video words, telemetry wedges). -/
def encodeLinePos (rA rB : List Nat) (pos : Nat) : Nat :=
  if pos < syncALen then syncAWave pos
  else if pos < videoAStart then 0
  else if pos < telemetryAStart then rA.getD (pos - videoAStart) 0
  else if pos < syncBStart then 128
  else if pos < spaceBStart then syncAWave (pos - syncBStart + 4)
  else if pos < videoBStart then 0
  else if pos < telemetryBStart then rB.getD (pos - videoBStart) 0
  else 128

/-- Modelled from the spec: a noiseless synthetic APT-format signal encoding a
known test raster, one line per row pair. -/
def encodeSignal (rows : List (List Nat × List Nat)) : Signal :=
  ⟨lineLen * rows.length, fun i =>
    encodeLinePos (rows.getD (i / lineLen) ([], [])).1
      (rows.getD (i / lineLen) ([], [])).2 (i % lineLen)⟩

/-- The true sync-mark positions of the synthetic signal: one `SYNC_A` mark at
the start of each encoded line. -/
def trueMarks (n : Nat) : List SyncMark :=
  (List.range n).map (fun l => ⟨lineLen * l, .syncA, 1⟩)

theorem map_getD_range (l : List α) (d : α) :
    (List.range l.length).map (fun i => l.getD i d) = l := by
  refine List.ext_getElem (by simp) ?_
  intro i h1 h2
  simp only [List.getElem_map, List.getElem_range]
  exact List.getD_eq_getElem l d h2

theorem encodeSignal_sample (rows : List (List Nat × List Nat)) (l r : Nat)
    (hr : r < lineLen) :
    (encodeSignal rows).sample (lineLen * l + r) =
      encodeLinePos (rows.getD l ([], [])).1 (rows.getD l ([], [])).2 r := by
  have hdiv : (lineLen * l + r) / lineLen = l := by
    rw [Nat.mul_add_div (by decide : 0 < lineLen), Nat.div_eq_of_lt hr, Nat.add_zero]
  have hmod : (lineLen * l + r) % lineLen = r := by
    rw [Nat.mul_add_mod, Nat.mod_eq_of_lt hr]
  simp only [encodeSignal, hdiv, hmod]

theorem layoutConsts :
    videoAStart = 86 ∧ telemetryAStart = 995 ∧ syncBStart = 1040 ∧
    spaceBStart = 1079 ∧ videoBStart = 1126 ∧ telemetryBStart = 2035 ∧
    lineLen = 2080 := by
  refine ⟨rfl, rfl, rfl, rfl, rfl, rfl, rfl⟩

theorem encodeLinePos_videoA (rA rB : List Nat) (j : Nat) (hj : j < videoLen) :
    encodeLinePos rA rB (videoAStart + j) = rA.getD j 0 := by
  have hj9 : j < 909 := hj
  have e1 : videoAStart = 86 := rfl
  unfold encodeLinePos
  rw [if_neg (by rw [e1]; unfold syncALen; omega),
    if_neg (by rw [e1]; omega),
    if_pos (by rw [e1]; unfold telemetryAStart videoAStart syncALen spaceALen videoLen; omega),
    Nat.add_sub_cancel_left]

theorem encodeLinePos_videoB (rA rB : List Nat) (j : Nat) (hj : j < videoLen) :
    encodeLinePos rA rB (videoBStart + j) = rB.getD j 0 := by
  have hj9 : j < 909 := hj
  have e1 : videoBStart = 1126 := rfl
  have e2 : videoAStart = 86 := rfl
  have e3 : telemetryAStart = 995 := rfl
  have e4 : syncBStart = 1040 := rfl
  have e5 : spaceBStart = 1079 := rfl
  have e6 : telemetryBStart = 2035 := rfl
  unfold encodeLinePos
  rw [if_neg (by rw [e1]; unfold syncALen; omega),
    if_neg (by rw [e1, e2]; omega),
    if_neg (by rw [e1, e3]; omega),
    if_neg (by rw [e1, e4]; omega),
    if_neg (by rw [e1, e5]; omega),
    if_neg (by rw [e1]; omega),
    if_pos (by rw [e1, e6]; omega),
    Nat.add_sub_cancel_left]

theorem encode_recover_videoA (rows : List (List Nat × List Nat)) (l : Nat)
    (hlen : (rows.getD l ([], [])).1.length = videoLen) :
    sliceSig (encodeSignal rows) (lineLen * l + videoAStart) videoLen =
      (rows.getD l ([], [])).1 := by
  unfold sliceSig
  have hstep : ∀ j, j < videoLen →
      (encodeSignal rows).sample (lineLen * l + videoAStart + j) =
        (rows.getD l ([], [])).1.getD j 0 := by
    intro j hj
    have hj9 : j < 909 := hj
    rw [Nat.add_assoc, encodeSignal_sample rows l (videoAStart + j)
      (by have e1 : videoAStart = 86 := rfl
          have e2 : lineLen = 2080 := rfl
          rw [e1, e2]; omega)]
    exact encodeLinePos_videoA _ _ j hj
  calc (List.range videoLen).map
        (fun i => (encodeSignal rows).sample (lineLen * l + videoAStart + i))
      = (List.range videoLen).map (fun i => (rows.getD l ([], [])).1.getD i 0) := by
        apply List.map_congr_left
        intro i hi
        exact hstep i (List.mem_range.mp hi)
    _ = (rows.getD l ([], [])).1 := by
        rw [← hlen, map_getD_range]

theorem encode_recover_videoB (rows : List (List Nat × List Nat)) (l : Nat)
    (hlen : (rows.getD l ([], [])).2.length = videoLen) :
    sliceSig (encodeSignal rows) (lineLen * l + videoBStart) videoLen =
      (rows.getD l ([], [])).2 := by
  unfold sliceSig
  have hstep : ∀ j, j < videoLen →
      (encodeSignal rows).sample (lineLen * l + videoBStart + j) =
        (rows.getD l ([], [])).2.getD j 0 := by
    intro j hj
    have hj9 : j < 909 := hj
    rw [Nat.add_assoc, encodeSignal_sample rows l (videoBStart + j)
      (by have e1 : videoBStart = 1126 := rfl
          have e2 : lineLen = 2080 := rfl
          rw [e1, e2]; omega)]
    exact encodeLinePos_videoB _ _ j hj
  calc (List.range videoLen).map
        (fun i => (encodeSignal rows).sample (lineLen * l + videoBStart + i))
      = (List.range videoLen).map (fun i => (rows.getD l ([], [])).2.getD i 0) := by
        apply List.map_congr_left
        intro i hi
        exact hstep i (List.mem_range.mp hi)
    _ = (rows.getD l ([], [])).2 := by
        rw [← hlen, map_getD_range]

theorem contributing_trueMarks (rows : List (List Nat × List Nat)) :
    contributing (encodeSignal rows) (trueMarks rows.length) = trueMarks rows.length := by
  unfold contributing
  apply List.filter_eq_self.mpr
  intro m hm
  unfold trueMarks at hm
  obtain ⟨l, hl, hm2⟩ := List.mem_map.mp hm
  have hln : l < rows.length := List.mem_range.mp hl
  subst hm2
  simp only [Bool.and_eq_true, decide_eq_true_eq, lineFits]
  refine ⟨trivial, ?_⟩
  show lineLen * l + lineLen ≤ (encodeSignal rows).len
  have hlenc : (encodeSignal rows).len = lineLen * rows.length := rfl
  rw [hlenc, ← Nat.mul_succ]
  exact Nat.mul_le_mul_left lineLen hln

theorem roundtrip_channelA (rows : List (List Nat × List Nat))
    (h : ∀ p ∈ rows, p.1.length = videoLen ∧ p.2.length = videoLen) :
    (decode_lines (encodeSignal rows) (trueMarks rows.length)).channelA =
      rows.map Prod.fst := by
  rw [decode_lines_channelA, contributing_trueMarks]
  unfold trueMarks
  rw [List.map_map]
  refine List.ext_getElem (by simp) ?_
  intro i h1 h2
  have hi : i < rows.length := by simpa using h2
  simp only [List.getElem_map, List.getElem_range, Function.comp_apply]
  have hlen1 : (rows.getD i ([], [])).1.length = videoLen := by
    rw [List.getD_eq_getElem _ _ hi]
    exact (h _ (List.getElem_mem hi)).1
  rw [encode_recover_videoA rows i hlen1, List.getD_eq_getElem _ _ hi]

theorem roundtrip_channelB (rows : List (List Nat × List Nat))
    (h : ∀ p ∈ rows, p.1.length = videoLen ∧ p.2.length = videoLen) :
    (decode_lines (encodeSignal rows) (trueMarks rows.length)).channelB =
      rows.map Prod.snd := by
  rw [decode_lines_channelB, contributing_trueMarks]
  unfold trueMarks
  rw [List.map_map]
  refine List.ext_getElem (by simp) ?_
  intro i h1 h2
  have hi : i < rows.length := by simpa using h2
  simp only [List.getElem_map, List.getElem_range, Function.comp_apply]
  have hlen1 : (rows.getD i ([], [])).2.length = videoLen := by
    rw [List.getD_eq_getElem _ _ hi]
    exact (h _ (List.getElem_mem hi)).2
  rw [encode_recover_videoB rows i hlen1, List.getD_eq_getElem _ _ hi]

theorem roundtrip_pixels (rows : List (List Nat × List Nat))
    (h : ∀ p ∈ rows, p.1.length = videoLen ∧ p.2.length = videoLen) :
    (assemble_image
        (decode_lines (encodeSignal rows) (trueMarks rows.length)).channelA
        (decode_lines (encodeSignal rows) (trueMarks rows.length)).channelB
        (decode_lines (encodeSignal rows) (trueMarks rows.length)).telemetryA
        (decode_lines (encodeSignal rows) (trueMarks rows.length)).telemetryB
        defaultOptions).pixels =
      rows.map (fun p => p.1 ++ p.2) := by
  have hA := roundtrip_channelA rows h
  have hB := roundtrip_channelB rows h
  have hpix : (assemble_image
        (decode_lines (encodeSignal rows) (trueMarks rows.length)).channelA
        (decode_lines (encodeSignal rows) (trueMarks rows.length)).channelB
        (decode_lines (encodeSignal rows) (trueMarks rows.length)).telemetryA
        (decode_lines (encodeSignal rows) (trueMarks rows.length)).telemetryB
        defaultOptions).pixels =
      List.zipWith (fun a b => a ++ b)
        (decode_lines (encodeSignal rows) (trueMarks rows.length)).channelA
        (decode_lines (encodeSignal rows) (trueMarks rows.length)).channelB := rfl
  rw [hpix, hA, hB, List.zipWith_map, List.zipWith_same]

/-- C2: a noiseless synthetic APT signal built from a known raster (canonical
sync patterns, pixel values placed in the video words) decodes, through
`decode_lines` then `assemble_image`, back to that raster exactly — so every
output pixel differs from the source pixel by at most 2 intensity levels. -/
theorem synthetic_roundtrip (rows : List (List Nat × List Nat))
    (h : ∀ p ∈ rows, p.1.length = videoLen ∧ p.2.length = videoLen) :
    (assemble_image
        (decode_lines (encodeSignal rows) (trueMarks rows.length)).channelA
        (decode_lines (encodeSignal rows) (trueMarks rows.length)).channelB
        (decode_lines (encodeSignal rows) (trueMarks rows.length)).telemetryA
        (decode_lines (encodeSignal rows) (trueMarks rows.length)).telemetryB
        defaultOptions).pixels =
      rows.map (fun p => p.1 ++ p.2)
    ∧ ∀ i j : Nat,
        Int.natAbs
          ((((assemble_image
              (decode_lines (encodeSignal rows) (trueMarks rows.length)).channelA
              (decode_lines (encodeSignal rows) (trueMarks rows.length)).channelB
              (decode_lines (encodeSignal rows) (trueMarks rows.length)).telemetryA
              (decode_lines (encodeSignal rows) (trueMarks rows.length)).telemetryB
              defaultOptions).pixels.getD i []).getD j 0 : ℤ)
            - ((((rows.map (fun p => p.1 ++ p.2)).getD i []).getD j 0 : ℕ) : ℤ)) ≤ 2 := by
  have hp := roundtrip_pixels rows h
  refine ⟨hp, ?_⟩
  intro i j
  rw [hp, sub_self, Int.natAbs_zero]
  exact Nat.zero_le 2

/-- C2 witness: a one-line raster with constant channel rows round-trips. -/
theorem synthetic_roundtrip_witness :
    (assemble_image
        (decode_lines (encodeSignal [(List.replicate 909 7, List.replicate 909 9)])
          (trueMarks 1)).channelA
        (decode_lines (encodeSignal [(List.replicate 909 7, List.replicate 909 9)])
          (trueMarks 1)).channelB
        (decode_lines (encodeSignal [(List.replicate 909 7, List.replicate 909 9)])
          (trueMarks 1)).telemetryA
        (decode_lines (encodeSignal [(List.replicate 909 7, List.replicate 909 9)])
          (trueMarks 1)).telemetryB
        defaultOptions).pixels =
      [List.replicate 909 7 ++ List.replicate 909 9] := by
  have h := synthetic_roundtrip [(List.replicate 909 7, List.replicate 909 9)]
    (by
      intro p hp
      rw [List.mem_singleton] at hp
      subst hp
      constructor
      · rw [List.length_replicate]; rfl
      · rw [List.length_replicate]; rfl)
  exact h.1

/-! ## Part 4: the synchronizer, modelled from the spec

Modelled from spec section 4.2 (missing `image_decoder.py`): a SEARCHING /
LOCKED state machine scanning left to right.  Correlation against the
canonical sync-A square waveform is an integer dot product of the ±1 template
with the 128-centred samples; the confidence threshold is 0.7 of the
template's maximal response and the in-lock threshold 0.5 of it.  While
locked, the next sync is searched only inside the drift-tolerance window
around the predicted offset (previous + 2080 per expected line); after
`maxMissedLines` consecutive windows without a peak the machine drops back to
SEARCHING past the last window (lines in the gap are dropped, not
fabricated). -/

/-- The ±1 canonical sync-A template (7 cycles of 4 high / 4 low samples). -/
def syncTemplate (i : Nat) : ℤ := if i % 8 < 4 then 1 else -1

/-- Length of the correlation template. -/
def tmplLen : Nat := 56

/-- Integer correlation of the template against the 128-centred window at
`q`. -/
def corrAt (sig : Signal) (q : Nat) : ℤ :=
  ((List.range tmplLen).map
    (fun i => syncTemplate i * ((sig.sample (q + i) : ℤ) - 128))).sum

/-- Acquisition threshold: 0.7 of the maximal template response 56·128. -/
def confidenceThreshold : ℤ := 5018

/-- In-lock (lower) threshold: 0.5 of the maximal template response. -/
def lockThreshold : ℤ := 3584

/-- Default drift tolerance (spec: `sync_drift_tolerance_samples ≈ 25`). -/
def sync_drift_tolerance : Nat := 25

/-- Number of consecutive missed expected lines before lock is dropped. -/
def maxMissedLines : Nat := 3

/-- Correlation confidence clamped into `[0,1]`. -/
def scoreAt (sig : Signal) (q : Nat) : ℚ :=
  max 0 (min 1 ((corrAt sig q : ℚ) / 7168))

/-- SEARCHING: the first position at/after `p` whose correlation reaches the
confidence threshold (window fully inside the signal). -/
def searchFirst (sig : Signal) (p : Nat) : Option Nat :=
  if sig.len < p + tmplLen then none
  else (List.range' p (sig.len - tmplLen - p + 1)).find?
    (fun q => decide (confidenceThreshold ≤ corrAt sig q))

/-- Distance between two sample indices. -/
def distN (a b : Nat) : Nat := max a b - min a b

/-- Choose the strongest candidate peak; on equal correlation prefer the one
closest to the drift-predicted `center` (the spec's tie-break). -/
def pickBest (sig : Signal) (center : Nat) : List Nat → Option Nat
  | [] => none
  | q :: rest =>
    match pickBest sig center rest with
    | none => some q
    | some b =>
      if corrAt sig b < corrAt sig q then some q
      else if corrAt sig b = corrAt sig q ∧ distN q center < distN b center then some q
      else some b

/-- LOCKED: the best peak above the in-lock threshold inside the
drift-tolerance window around the predicted position. -/
def lockedFind (sig : Signal) (center : Nat) : Option Nat :=
  pickBest sig center
    ((List.range' (center - sync_drift_tolerance) (2 * sync_drift_tolerance + 1)).filter
      (fun q => decide (q + tmplLen ≤ sig.len) && decide (lockThreshold ≤ corrAt sig q)))

/-- Synchronizer state: wide scan from a position, or locked to the last
recorded mark with a count of consecutive missed expected lines. -/
inductive SyncState where
  | searching (pos : Nat)
  | locked (last : Nat) (missed : Nat)

/-- One fuel-indexed run of the synchronizer state machine. -/
def aptLoop (sig : Signal) : Nat → SyncState → List SyncMark
  | 0, _ => []
  | fuel + 1, .searching p =>
    match searchFirst sig p with
    | none => []
    | some q => ⟨q, .syncA, scoreAt sig q⟩ :: aptLoop sig fuel (.locked q 0)
  | fuel + 1, .locked last missed =>
    match lockedFind sig (last + lineLen * (missed + 1)) with
    | some q => ⟨q, .syncA, scoreAt sig q⟩ :: aptLoop sig fuel (.locked q 0)
    | none =>
      if missed + 1 < maxMissedLines then aptLoop sig fuel (.locked last (missed + 1))
      else aptLoop sig fuel
        (.searching (last + lineLen * maxMissedLines + sync_drift_tolerance + 1))

/-- Modelled from the spec: `find_sync_marks(signal)`; the fuel bounds the
number of state-machine steps (each step advances through the signal). -/
def find_sync_marks (sig : Signal) : List SyncMark :=
  aptLoop sig (sig.len + 2) (.searching 0)

theorem pickBest_mem (sig : Signal) (center : Nat) (l : List Nat) (q : Nat)
    (h : pickBest sig center l = some q) : q ∈ l := by
  induction l with
  | nil => simp [pickBest] at h
  | cons x rest ih =>
    rw [pickBest] at h
    rcases hr : pickBest sig center rest with _ | b
    · rw [hr] at h
      simp at h
      simp [h]
    · rw [hr] at h
      dsimp only at h
      by_cases h1 : corrAt sig b < corrAt sig x
      · rw [if_pos h1] at h
        simp at h
        simp [h]
      · rw [if_neg h1] at h
        by_cases h2 : corrAt sig b = corrAt sig x ∧ distN x center < distN b center
        · rw [if_pos h2] at h
          simp at h
          simp [h]
        · rw [if_neg h2] at h
          simp at h
          subst h
          exact List.mem_cons_of_mem x (ih hr)

theorem searchFirst_bounds (sig : Signal) (p q : Nat)
    (h : searchFirst sig p = some q) : p ≤ q ∧ q + tmplLen ≤ sig.len := by
  unfold searchFirst at h
  by_cases hg : sig.len < p + tmplLen
  · rw [if_pos hg] at h
    exact absurd h (by simp)
  · rw [if_neg hg] at h
    have hmem := List.mem_of_find?_eq_some h
    have hb := List.mem_range'_1.mp hmem
    omega

theorem lockedFind_bounds (sig : Signal) (center q : Nat)
    (hc : sync_drift_tolerance ≤ center) (h : lockedFind sig center = some q) :
    center - sync_drift_tolerance ≤ q ∧ q ≤ center + sync_drift_tolerance
      ∧ q + tmplLen ≤ sig.len := by
  unfold lockedFind at h
  have hmem := pickBest_mem _ _ _ _ h
  rw [List.mem_filter] at hmem
  obtain ⟨hrange, hpred⟩ := hmem
  have hb := List.mem_range'_1.mp hrange
  rw [Bool.and_eq_true, decide_eq_true_eq, decide_eq_true_eq] at hpred
  exact ⟨by omega, by omega, hpred.1⟩

/-- Lower bound on the offset of any mark the machine can still emit from a
given state. -/
def stateLB : SyncState → Nat
  | .searching p => p
  | .locked last missed => last + lineLen * (missed + 1) - sync_drift_tolerance

/-- Reachable states never exceed the missed-line budget. -/
def stateOK : SyncState → Prop
  | .searching _ => True
  | .locked _ missed => missed < maxMissedLines

theorem aptLoop_offset_ge (sig : Signal) :
    ∀ (fuel : Nat) (st : SyncState), stateOK st →
      ∀ m ∈ aptLoop sig fuel st, stateLB st ≤ m.offset := by
  intro fuel
  induction fuel with
  | zero => intro st _ m hm; simp [aptLoop] at hm
  | succ fuel ih =>
    intro st hok m hm
    have elin : lineLen = 2080 := rfl
    have etol : sync_drift_tolerance = 25 := rfl
    have emiss : maxMissedLines = 3 := rfl
    cases st with
    | searching p =>
      rw [aptLoop] at hm
      rcases hs : searchFirst sig p with _ | q
      · rw [hs] at hm; simp at hm
      · rw [hs] at hm
        have hq := searchFirst_bounds sig p q hs
        show p ≤ m.offset
        rcases List.mem_cons.mp hm with hm1 | hm1
        · rw [hm1]
          exact hq.1
        · have hrec : q + lineLen * (0 + 1) - sync_drift_tolerance ≤ m.offset :=
            ih (.locked q 0) (show 0 < maxMissedLines by rw [emiss]; omega) m hm1
          rw [elin, etol] at hrec
          omega
    | locked last missed =>
      rw [aptLoop] at hm
      show last + lineLen * (missed + 1) - sync_drift_tolerance ≤ m.offset
      have hcen : sync_drift_tolerance ≤ last + lineLen * (missed + 1) := by
        rw [etol, elin]; omega
      have hok3 : missed < 3 := by
        rw [← emiss]; exact hok
      rcases hs : lockedFind sig (last + lineLen * (missed + 1)) with _ | q
      · rw [hs] at hm
        by_cases hretry : missed + 1 < maxMissedLines
        · rw [if_pos hretry] at hm
          have hrec : last + lineLen * (missed + 1 + 1) - sync_drift_tolerance ≤ m.offset :=
            ih (.locked last (missed + 1)) hretry m hm
          rw [elin, etol] at hrec ⊢
          omega
        · rw [if_neg hretry] at hm
          have hrec : last + lineLen * maxMissedLines + sync_drift_tolerance + 1 ≤ m.offset :=
            ih (.searching (last + lineLen * maxMissedLines + sync_drift_tolerance + 1))
              trivial m hm
          rw [elin, etol, emiss] at hrec
          rw [emiss] at hretry
          rw [elin, etol]
          omega
      · rw [hs] at hm
        have hq := lockedFind_bounds sig _ q hcen hs
        rcases List.mem_cons.mp hm with hm1 | hm1
        · rw [hm1]
          exact hq.1
        · have hrec : q + lineLen * (0 + 1) - sync_drift_tolerance ≤ m.offset :=
            ih (.locked q 0) (show 0 < maxMissedLines by rw [emiss]; omega) m hm1
          have hq1 := hq.1
          rw [elin, etol] at hrec hq1 ⊢
          omega

theorem aptLoop_chain (sig : Signal) :
    ∀ (fuel : Nat) (st : SyncState), stateOK st →
      List.Chain'
        (fun a b : SyncMark => a.offset + (lineLen - sync_drift_tolerance) ≤ b.offset)
        (aptLoop sig fuel st) := by
  intro fuel
  induction fuel with
  | zero => intro st _; simp [aptLoop]
  | succ fuel ih =>
    intro st hok
    have elin : lineLen = 2080 := rfl
    have etol : sync_drift_tolerance = 25 := rfl
    have emiss : maxMissedLines = 3 := rfl
    cases st with
    | searching p =>
      rw [aptLoop]
      rcases hs : searchFirst sig p with _ | q
      · simp
      · refine List.chain'_cons'.mpr
          ⟨?_, ih (.locked q 0) (show 0 < maxMissedLines by rw [emiss]; omega)⟩
        intro y hy
        have hrec : q + lineLen * (0 + 1) - sync_drift_tolerance ≤ y.offset :=
          aptLoop_offset_ge sig fuel (.locked q 0)
            (show 0 < maxMissedLines by rw [emiss]; omega) y (List.mem_of_mem_head? hy)
        show q + (lineLen - sync_drift_tolerance) ≤ y.offset
        rw [elin, etol] at hrec ⊢
        omega
    | locked last missed =>
      rw [aptLoop]
      have hok3 : missed < 3 := by
        rw [← emiss]; exact hok
      rcases hs : lockedFind sig (last + lineLen * (missed + 1)) with _ | q
      · by_cases hretry : missed + 1 < maxMissedLines
        · rw [if_pos hretry]
          exact ih (.locked last (missed + 1)) hretry
        · rw [if_neg hretry]
          exact ih (.searching _) trivial
      · refine List.chain'_cons'.mpr
          ⟨?_, ih (.locked q 0) (show 0 < maxMissedLines by rw [emiss]; omega)⟩
        intro y hy
        have hrec : q + lineLen * (0 + 1) - sync_drift_tolerance ≤ y.offset :=
          aptLoop_offset_ge sig fuel (.locked q 0)
            (show 0 < maxMissedLines by rw [emiss]; omega) y (List.mem_of_mem_head? hy)
        show q + (lineLen - sync_drift_tolerance) ≤ y.offset
        rw [elin, etol] at hrec ⊢
        omega

/-- C3 (amended): the SyncMark sequence is strictly increasing, and every
adjacent gap is at least `2080 − drift_tolerance`; the upper bound
`2080 + drift_tolerance` holds only between marks found in consecutive locked
steps — a missed expected line or a loss of lock makes the next recorded mark
more than one line away (such lines are dropped, not fabricated). -/
theorem find_sync_marks_monotone (sig : Signal) :
    List.Chain' (fun a b : SyncMark => a.offset < b.offset) (find_sync_marks sig)
    ∧ List.Chain'
        (fun a b : SyncMark =>
          a.offset + (lineLen - sync_drift_tolerance) ≤ b.offset)
        (find_sync_marks sig) := by
  have h := aptLoop_chain sig (sig.len + 2) (.searching 0) trivial
  refine ⟨h.imp ?_, h⟩
  intro a b hab
  have elin : lineLen = 2080 := rfl
  have etol : sync_drift_tolerance = 25 := rfl
  rw [elin, etol] at hab
  omega

/-- A signal with a valid sync pattern at offset 0, an undetectable line at
offset 2080 (flat mid-gray), and the next sync pattern at offset 4160. -/
def c3sig : Signal :=
  ⟨4216, fun i =>
    if i < 56 then syncAWave i
    else if 4160 ≤ i then syncAWave (i - 4160)
    else 128⟩

set_option maxRecDepth 10000 in
/-- C3 counterexample: on `c3sig` the synchronizer records marks at offsets 0
and 4160 (the line at 2080 is missed), both of kind `SYNC_A`, so this adjacent
same-kind pair has gap 4160 outside `2080 ± 25`: the claimed bound on all
adjacent same-kind pairs fails. -/
theorem find_sync_marks_gap_counterexample :
    (find_sync_marks c3sig).map SyncMark.offset = [0, 4160]
    ∧ (find_sync_marks c3sig).map SyncMark.kind = [.syncA, .syncA]
    ∧ ¬ List.Chain'
        (fun a b : SyncMark =>
          a.offset + (lineLen - sync_drift_tolerance) ≤ b.offset ∧
          b.offset ≤ a.offset + (lineLen + sync_drift_tolerance))
        (find_sync_marks c3sig) := by
  have hoff : (find_sync_marks c3sig).map SyncMark.offset = [0, 4160] := by decide
  refine ⟨hoff, by decide, ?_⟩
  intro hch
  have h2 : List.Chain'
      (fun x y : Nat =>
        x + (lineLen - sync_drift_tolerance) ≤ y ∧
        y ≤ x + (lineLen + sync_drift_tolerance))
      ((find_sync_marks c3sig).map SyncMark.offset) :=
    (List.chain'_map SyncMark.offset).mpr hch
  rw [hoff] at h2
  have h3 := List.chain'_pair.mp h2
  have h4 : (4160 : Nat) ≤ 0 + (lineLen + sync_drift_tolerance) := h3.2
  have elin : lineLen = 2080 := rfl
  have etol : sync_drift_tolerance = 25 := rfl
  rw [elin, etol] at h4
  omega

/-! ## Part 5: the demodulator, modelled from the spec

Modelled from spec section 4.1 (missing `signal_preprocessor.py`): input
guards (`InvalidAudioError` on empty, silent or sub-rate input, and on input
shorter than one full line), rectification + low-pass envelope detection,
resampling to 4160 Hz (modelled by rational-rate index interpolation; the
band-limited kernel choice does not affect the stated properties), and
percentile-clipped normalization to `[0,255]` with clamping.  Exact rational
arithmetic stands in for floating point; the one non-finite hazard of the
real computation — dividing by a degenerate dynamic range — is modelled by
the explicit mid-gray branch of `normalizeSample`. -/

/-- Error taxonomy of the core (spec section 7): `invalidInput` models
`InvalidAudioError`, `noSyncFound` models the structural `DecodeError`. -/
inductive DecError where
  | invalidInput
  | noSyncFound
deriving DecidableEq

/-- Full-wave rectification of the carrier signal. -/
def rectify (xs : List ℚ) : List ℚ := xs.map (fun x => |x|)

/-- Length-preserving moving-average low-pass filter (window 5, edge samples
clamped). -/
def lowpass (xs : List ℚ) : List ℚ :=
  (List.range xs.length).map (fun i =>
    (xs.getD (i - 2) 0 + xs.getD (i - 1) 0 + xs.getD i 0
      + xs.getD (min (i + 1) (xs.length - 1)) 0
      + xs.getD (min (i + 2) (xs.length - 1)) 0) / 5)

/-- Output length when resampling `n` input samples from `rate` Hz to
4160 Hz. -/
def resampleLen (n rate : Nat) : Nat := n * 4160 / rate

/-- Resampling to 4160 Hz, modelled by index interpolation at the rational
rate ratio (arbitrary, not necessarily integral, ratios are accepted). -/
def resampleTo4160 (xs : List ℚ) (rate : Nat) : List ℚ :=
  (List.range (resampleLen xs.length rate)).map
    (fun i => xs.getD (i * rate / 4160) 0)

/-- Insertion of a value into a sorted list of rationals. -/
def insertQ (x : ℚ) : List ℚ → List ℚ
  | [] => [x]
  | y :: ys => if x ≤ y then x :: y :: ys else y :: insertQ x ys

/-- Insertion sort used to extract percentiles. -/
def sortQ : List ℚ → List ℚ
  | [] => []
  | x :: xs => insertQ x (sortQ xs)

/-- The `p`-th percentile of a list (index `p·(n−1)/100` of the sorted
list). -/
def percentileQ (xs : List ℚ) (p : Nat) : ℚ :=
  (sortQ xs).getD (p * (xs.length - 1) / 100) 0

/-- The silent-input test: every sample is zero. -/
def isSilent (samples : List ℤ) : Bool := samples.all (fun s => s = 0)

/-- The detected envelope: rectification followed by the low-pass filter. -/
def envelopeOf (samples : List ℤ) : List ℚ :=
  lowpass (rectify (samples.map (fun s : ℤ => (s : ℚ))))

/-- The envelope resampled to 4160 Hz. -/
def resampledOf (samples : List ℤ) (rate : Nat) : List ℚ :=
  resampleTo4160 (envelopeOf samples) rate

/-- Modelled from the spec: `demodulate(raw_audio)` (missing
`signal_preprocessor.py`).  Rejects empty, silent, sub-rate (below the
11025 Hz floor) and shorter-than-one-line input with `InvalidAudioError`;
otherwise rectifies, low-passes, resamples to 4160 Hz and normalizes with a
1st/99th-percentile clip, clamped into `[0,255]`. -/
def demodulate (samples : List ℤ) (rate : Nat) : Except DecError (List Nat) :=
  if samples.isEmpty then .error .invalidInput
  else if isSilent samples then .error .invalidInput
  else if rate < 11025 then .error .invalidInput
  else if (resampledOf samples rate).length < lineLen then .error .invalidInput
  else .ok ((resampledOf samples rate).map
    (normalizeSample (percentileQ (resampledOf samples rate) 1)
      (percentileQ (resampledOf samples rate) 99)))

theorem normalizeSample_le (lo hi v : ℚ) : normalizeSample lo hi v ≤ 255 := by
  unfold normalizeSample
  by_cases h : hi ≤ lo
  · rw [if_pos h]; omega
  · rw [if_neg h]
    unfold clamp255
    have h1 : min 255 (max 0 (round ((v - lo) * 255 / (hi - lo)))) ≤ (255 : ℤ) :=
      min_le_left _ _
    omega

theorem round_le_zero_of_nonpos (x : ℚ) (h : x ≤ 0) : round x ≤ 0 := by
  rw [round_eq]
  have h1 : x + 1 / 2 ≤ 1 / 2 := by linarith
  have h2 := Int.floor_mono h1
  have h3 : ⌊(1 / 2 : ℚ)⌋ = 0 := by norm_num
  omega

theorem round_ge_of_ge (x : ℚ) (n : ℤ) (h : (n : ℚ) ≤ x) : n ≤ round x := by
  rw [round_eq]
  have h1 : (n : ℚ) + 1 / 2 ≤ x + 1 / 2 := by linarith
  have h2 := Int.floor_mono h1
  have h3 : ⌊(n : ℚ) + 1 / 2⌋ = n := by
    rw [Int.floor_eq_iff]
    constructor
    · linarith
    · linarith
  omega

theorem normalizeSample_clamp_low (lo hi v : ℚ) (hlt : lo < hi) (hv : v ≤ lo) :
    normalizeSample lo hi v = 0 := by
  unfold normalizeSample
  rw [if_neg (not_le.mpr hlt)]
  unfold clamp255
  have hnum : (v - lo) * 255 / (hi - lo) ≤ 0 := by
    apply div_nonpos_of_nonpos_of_nonneg
    · nlinarith
    · linarith
  have hr := round_le_zero_of_nonpos _ hnum
  have : max 0 (round ((v - lo) * 255 / (hi - lo))) = 0 := by omega
  rw [this]
  rfl

theorem normalizeSample_clamp_high (lo hi v : ℚ) (hlt : lo < hi) (hv : hi ≤ v) :
    normalizeSample lo hi v = 255 := by
  unfold normalizeSample
  rw [if_neg (not_le.mpr hlt)]
  unfold clamp255
  have hnum : (255 : ℚ) ≤ (v - lo) * 255 / (hi - lo) := by
    rw [le_div_iff₀ (by linarith)]
    nlinarith
  have hr := round_ge_of_ge _ 255 (by exact_mod_cast hnum)
  have h1 : max 0 (round ((v - lo) * 255 / (hi - lo))) = round ((v - lo) * 255 / (hi - lo)) := by
    omega
  rw [h1]
  have h2 : min 255 (round ((v - lo) * 255 / (hi - lo))) = 255 := by omega
  rw [h2]
  rfl

/-- C4: the normalization step maps the envelope through a 1st/99th-percentile
clip: values at or below the low clip go to 0 and values at or above the high
clip go to 255 (clamped to the boundaries, never wrapped modulo 256), and
every sample of every normalized signal `demodulate` delivers is an integer
in `[0,255]`. -/
theorem demodulate_normalization (samples : List ℤ) (rate : Nat)
    (out : List Nat) (h : demodulate samples rate = .ok out) :
    (∀ v ∈ out, v ≤ 255)
    ∧ out = (resampledOf samples rate).map
        (normalizeSample (percentileQ (resampledOf samples rate) 1)
          (percentileQ (resampledOf samples rate) 99))
    ∧ (∀ lo hi v : ℚ, lo < hi → v ≤ lo → normalizeSample lo hi v = 0)
    ∧ (∀ lo hi v : ℚ, lo < hi → hi ≤ v → normalizeSample lo hi v = 255) := by
  unfold demodulate at h
  by_cases h1 : samples.isEmpty = true
  · rw [if_pos h1] at h; exact absurd h (by simp)
  rw [if_neg h1] at h
  by_cases h2 : isSilent samples = true
  · rw [if_pos h2] at h; exact absurd h (by simp)
  rw [if_neg h2] at h
  by_cases h3 : rate < 11025
  · rw [if_pos h3] at h; exact absurd h (by simp)
  rw [if_neg h3] at h
  by_cases h4 : (resampledOf samples rate).length < lineLen
  · rw [if_pos h4] at h; exact absurd h (by simp)
  rw [if_neg h4] at h
  have hout : out = (resampledOf samples rate).map
      (normalizeSample (percentileQ (resampledOf samples rate) 1)
          (percentileQ (resampledOf samples rate) 99)) := by
    have := Except.ok.inj h
    exact this.symm
  refine ⟨?_, hout, normalizeSample_clamp_low, normalizeSample_clamp_high⟩
  intro v hv
  rw [hout] at hv
  obtain ⟨x, _, hx⟩ := List.mem_map.mp hv
  rw [← hx]
  exact normalizeSample_le _ _ _

theorem getD_replicate_lt (n : Nat) (a d : ℚ) (i : Nat) (h : i < n) :
    (List.replicate n a).getD i d = a := by
  rw [List.getD_eq_getElem _ _ (by simpa using h), List.getElem_replicate]

theorem length_lowpass (xs : List ℚ) : (lowpass xs).length = xs.length := by
  simp [lowpass]

theorem length_rectify (xs : List ℚ) : (rectify xs).length = xs.length := by
  simp [rectify]

theorem length_resample (xs : List ℚ) (rate : Nat) :
    (resampleTo4160 xs rate).length = resampleLen xs.length rate := by
  simp [resampleTo4160]

theorem length_resampledOf (samples : List ℤ) (rate : Nat) :
    (resampledOf samples rate).length = resampleLen samples.length rate := by
  rw [resampledOf, length_resample, envelopeOf, length_lowpass, length_rectify,
    List.length_map]

theorem map_const_range (n : Nat) (c : ℚ) :
    (List.range n).map (fun _ => c) = List.replicate n c := by
  refine List.eq_replicate_iff.mpr ⟨by simp, ?_⟩
  intro b hb
  obtain ⟨x, _, hx⟩ := List.mem_map.mp hb
  exact hx.symm

theorem lowpass_replicate (n : Nat) (q : ℚ) :
    lowpass (List.replicate n q) = List.replicate n q := by
  unfold lowpass
  rw [List.length_replicate]
  have hstep : ∀ i ∈ List.range n,
      ((List.replicate n q).getD (i - 2) 0 + (List.replicate n q).getD (i - 1) 0
        + (List.replicate n q).getD i 0
        + (List.replicate n q).getD (min (i + 1) (n - 1)) 0
        + (List.replicate n q).getD (min (i + 2) (n - 1)) 0) / 5 = q := by
    intro i hi
    have hin : i < n := List.mem_range.mp hi
    rw [getD_replicate_lt n q 0 (i - 2) (by omega),
      getD_replicate_lt n q 0 (i - 1) (by omega),
      getD_replicate_lt n q 0 i hin,
      getD_replicate_lt n q 0 (min (i + 1) (n - 1)) (by omega),
      getD_replicate_lt n q 0 (min (i + 2) (n - 1)) (by omega)]
    ring
  rw [List.map_congr_left hstep, map_const_range]

theorem resample_idx_lt (i n rate : Nat) (hrate : 0 < rate)
    (hi : i < resampleLen n rate) : i * rate / 4160 < n := by
  unfold resampleLen at hi
  have h1 : (i + 1) * rate ≤ n * 4160 :=
    (Nat.le_div_iff_mul_le hrate).mp (by omega)
  have h2 : i * rate < (i + 1) * rate ∨ i * rate ≤ (i + 1) * rate := by
    right
    exact Nat.mul_le_mul_right rate (by omega)
  rw [Nat.div_lt_iff_lt_mul (by omega : 0 < 4160)]
  have h3 : i * rate + rate = (i + 1) * rate := by ring
  omega

theorem resample_replicate (n : Nat) (q : ℚ) (rate : Nat) (hrate : 0 < rate) :
    resampleTo4160 (List.replicate n q) rate =
      List.replicate (resampleLen n rate) q := by
  unfold resampleTo4160
  rw [List.length_replicate]
  have hstep : ∀ i ∈ List.range (resampleLen n rate),
      (List.replicate n q).getD (i * rate / 4160) 0 = q := by
    intro i hi
    exact getD_replicate_lt n q 0 _
      (resample_idx_lt i n rate hrate (List.mem_range.mp hi))
  rw [List.map_congr_left hstep, map_const_range]

theorem sortQ_replicate (n : Nat) (q : ℚ) :
    sortQ (List.replicate n q) = List.replicate n q := by
  induction n with
  | zero => rfl
  | succ k ih =>
    rw [List.replicate_succ, sortQ, ih]
    cases k with
    | zero => rfl
    | succ j =>
      rw [List.replicate_succ, insertQ, if_pos (le_refl q), ← List.replicate_succ,
        ← List.replicate_succ]

theorem percentileQ_replicate (n : Nat) (q : ℚ) (p : Nat) (hn : 0 < n)
    (hp : p ≤ 100) : percentileQ (List.replicate n q) p = q := by
  unfold percentileQ
  rw [sortQ_replicate, List.length_replicate]
  apply getD_replicate_lt
  have h1 : p * (n - 1) ≤ 100 * (n - 1) := Nat.mul_le_mul_right _ hp
  have h2 : p * (n - 1) / 100 ≤ 100 * (n - 1) / 100 := Nat.div_le_div_right h1
  have h3 : 100 * (n - 1) / 100 = n - 1 := by
    rw [Nat.mul_div_cancel_left _ (by omega : 0 < 100)]
  omega

theorem demodulate_constant_input (c : ℤ) (n rate : Nat) (hc : c ≠ 0)
    (hrate : 11025 ≤ rate) (hlen : lineLen ≤ resampleLen n rate) :
    demodulate (List.replicate n c) rate =
      .ok (List.replicate (resampleLen n rate) 128) := by
  have hn : 0 < n := by
    by_contra hn0
    have : n = 0 := by omega
    subst this
    rw [show resampleLen 0 rate = 0 from by unfold resampleLen; simp] at hlen
    have : lineLen = 2080 := rfl
    omega
  have hres : resampledOf (List.replicate n c) rate =
      List.replicate (resampleLen n rate) |(c : ℚ)| := by
    rw [resampledOf, envelopeOf, List.map_replicate, rectify, List.map_replicate,
      lowpass_replicate, resample_replicate _ _ _ (by omega)]
  have hL : 0 < resampleLen n rate := by
    have : lineLen = 2080 := rfl
    omega
  unfold demodulate
  rw [if_neg (by simp [List.isEmpty_iff]; omega),
    if_neg (by
      rw [Bool.not_eq_true, isSilent]
      rw [List.all_eq_false]
      refine ⟨c, List.mem_replicate.mpr ⟨by omega, rfl⟩, by simpa using hc⟩),
    if_neg (by omega),
    if_neg (by
      rw [length_resampledOf, List.length_replicate]
      omega)]
  rw [hres, percentileQ_replicate _ _ _ hL (by omega),
    percentileQ_replicate _ _ _ hL (by omega), List.map_replicate]
  have hmid : normalizeSample |(c : ℚ)| |(c : ℚ)| |(c : ℚ)| = 128 := by
    rw [normalizeSample, if_pos (le_refl _)]
  rw [hmid]

/-- C4 witness: a concrete constant input demodulates successfully with all
output samples bounded by 255, and the clamp sends out-of-range values to the
boundaries 0 and 255. -/
theorem demodulate_normalization_witness :
    (∀ v ∈ (List.replicate (resampleLen 5600 11025) 128 : List Nat), v ≤ 255)
    ∧ normalizeSample 10 20 5 = 0
    ∧ normalizeSample 10 20 25 = 255 := by
  have hconst := demodulate_constant_input 5 5600 11025 (by decide) (by decide)
    (by decide)
  have h := demodulate_normalization (List.replicate 5600 5) 11025
    (List.replicate (resampleLen 5600 11025) 128) hconst
  exact ⟨h.1, h.2.2.1 10 20 5 (by norm_num) (by norm_num),
    h.2.2.2 10 20 25 (by norm_num) (by norm_num)⟩

/-- C5: `demodulate` fails with `InvalidAudioError` on empty input, on silent
(all-zero) input, on sub-rate input (sample rate below the 11025 Hz floor
needed to resolve the APT line rate), and on input shorter than one full line
(fewer than 2080 samples at 4160 Hz after resampling); the `Except` result
carries no partial output in any of these cases. -/
theorem demodulate_rejects (samples : List ℤ) (rate : Nat) :
    (samples = [] → demodulate samples rate = .error .invalidInput)
    ∧ ((∀ s ∈ samples, s = 0) → demodulate samples rate = .error .invalidInput)
    ∧ (rate < 11025 → demodulate samples rate = .error .invalidInput)
    ∧ (resampleLen samples.length rate < lineLen →
        demodulate samples rate = .error .invalidInput) := by
  have herr : ∀ (hcond : Prop), (samples.isEmpty = true ∨ isSilent samples = true
      ∨ rate < 11025 ∨ resampleLen samples.length rate < lineLen) →
      demodulate samples rate = .error .invalidInput := by
    intro _ hor
    unfold demodulate
    by_cases h1 : samples.isEmpty = true
    · rw [if_pos h1]
    · rw [if_neg h1]
      by_cases h2 : isSilent samples = true
      · rw [if_pos h2]
      · rw [if_neg h2]
        by_cases h3 : rate < 11025
        · rw [if_pos h3]
        · rw [if_neg h3]
          have h4 : (resampledOf samples rate).length < lineLen := by
            rw [length_resampledOf]
            rcases hor with h | h | h | h
            · exact absurd h h1
            · exact absurd h h2
            · exact absurd h h3
            · exact h
          rw [if_pos h4]
  refine ⟨?_, ?_, ?_, ?_⟩
  · intro h
    exact herr True (Or.inl (by rw [h]; rfl))
  · intro h
    refine herr True (Or.inr (Or.inl ?_))
    rw [isSilent, List.all_eq_true]
    intro s hs
    simpa using h s hs
  · intro h
    exact herr True (Or.inr (Or.inr (Or.inl h)))
  · intro h
    exact herr True (Or.inr (Or.inr (Or.inr h)))

/-- C5 witness: the four rejection cases at concrete inputs — empty, silent,
sub-rate, and shorter than one full line. -/
theorem demodulate_rejects_witness :
    demodulate [] 48000 = .error .invalidInput
    ∧ demodulate (List.replicate 100 0) 48000 = .error .invalidInput
    ∧ demodulate [7, -3] 8000 = .error .invalidInput
    ∧ demodulate (List.replicate 100 7) 11025 = .error .invalidInput := by
  refine ⟨(demodulate_rejects [] 48000).1 rfl, ?_, ?_, ?_⟩
  · refine (demodulate_rejects (List.replicate 100 0) 48000).2.1 ?_
    intro s hs
    exact List.eq_of_mem_replicate hs
  · exact (demodulate_rejects [7, -3] 8000).2.2.1 (by omega)
  · exact (demodulate_rejects (List.replicate 100 7) 11025).2.2.2 (by decide)

/-- C6 counterexample: filtering all-zero input never reaches the numerical
guard — silent input is rejected up front with `InvalidAudioError`, so the
pipeline raises an error instead of producing the claimed flat mid-gray
signal. -/
theorem demodulate_allzero_error :
    demodulate (List.replicate 4160 0) 11025 = .error .invalidInput
    ∧ ∀ out : List Nat, demodulate (List.replicate 4160 0) 11025 ≠ .ok out := by
  have h : demodulate (List.replicate 4160 0) 11025 = .error .invalidInput := by
    unfold demodulate
    rw [if_neg (by simp [List.isEmpty_iff]),
      if_pos (by
        rw [isSilent, List.all_eq_true]
        intro s hs
        simpa using List.eq_of_mem_replicate hs)]
  refine ⟨h, ?_⟩
  intro out hout
  rw [h] at hout
  exact Except.noConfusion hout

/-- C6 (amended): the non-finite hazard of demodulation — the division by a
degenerate dynamic range, reached e.g. on constant non-zero input (all-zero
input is instead rejected as silent before filtering) — is caught locally in
the normalization step and replaced by neutral mid-gray 128 for the whole
signal, with no error raised; no non-finite value is propagated: the
delivered output is everywhere the integer 128. -/
theorem demodulate_degenerate_midgray (c : ℤ) (n rate : Nat) (hc : c ≠ 0)
    (hrate : 11025 ≤ rate) (hlen : lineLen ≤ resampleLen n rate) :
    demodulate (List.replicate n c) rate =
      .ok (List.replicate (resampleLen n rate) 128)
    ∧ ∀ lo v : ℚ, normalizeSample lo lo v = 128 := by
  refine ⟨demodulate_constant_input c n rate hc hrate hlen, ?_⟩
  intro lo v
  rw [normalizeSample, if_pos (le_refl lo)]

/-- C6 amended-claim witness: a concrete constant non-zero recording yields
the flat mid-gray signal with no error. -/
theorem demodulate_degenerate_midgray_witness :
    demodulate (List.replicate 5600 (-9)) 11025 =
      .ok (List.replicate (resampleLen 5600 11025) 128) :=
  (demodulate_degenerate_midgray (-9) 5600 11025 (by decide) (by decide)
    (by decide)).1

/-- View a materialized normalized-sample list as a `Signal`. -/
def Signal.ofList (l : List Nat) : Signal := ⟨l.length, fun i => l.getD i 0⟩

/-- Modelled from the spec: the full pipeline — demodulate, synchronize,
decode lines, assemble the image; a recording with no sync marks at all is the
structural `DecodeError` case. -/
def decode_pipeline (samples : List ℤ) (rate : Nat) (opts : ImgOptions) :
    Except DecError Image :=
  match demodulate samples rate with
  | .error e => .error e
  | .ok norm =>
    if (find_sync_marks (Signal.ofList norm)).isEmpty then .error .noSyncFound
    else
      .ok (assemble_image
        (decode_lines (Signal.ofList norm) (find_sync_marks (Signal.ofList norm))).channelA
        (decode_lines (Signal.ofList norm) (find_sync_marks (Signal.ofList norm))).channelB
        (decode_lines (Signal.ofList norm) (find_sync_marks (Signal.ofList norm))).telemetryA
        (decode_lines (Signal.ofList norm) (find_sync_marks (Signal.ofList norm))).telemetryB
        opts)

/-- C7: the pipeline is deterministic — every stage is a pure function of its
input, so running it twice on the same bytes yields bit-identical results; in
particular `demodulate` and `find_sync_marks` return identical output for
identical input. -/
theorem pipeline_deterministic :
    (∀ (samples : List ℤ) (rate : Nat) (opts : ImgOptions),
      decode_pipeline samples rate opts = decode_pipeline samples rate opts)
    ∧ (∀ (samples : List ℤ) (rate : Nat),
      demodulate samples rate = demodulate samples rate)
    ∧ (∀ sig : Signal, find_sync_marks sig = find_sync_marks sig)
    ∧ (∀ (s1 s2 : List ℤ) (r1 r2 : Nat) (o1 o2 : ImgOptions),
      s1 = s2 → r1 = r2 → o1 = o2 →
        decode_pipeline s1 r1 o1 = decode_pipeline s2 r2 o2) := by
  refine ⟨fun _ _ _ => rfl, fun _ _ => rfl, fun _ => rfl, ?_⟩
  intro s1 s2 r1 r2 o1 o2 h1 h2 h3
  rw [h1, h2, h3]

/-- C7 witness: two runs on the same concrete input agree. -/
theorem pipeline_deterministic_witness :
    decode_pipeline [4, 7] 48000 defaultOptions =
      decode_pipeline [4, 7] 48000 defaultOptions :=
  pipeline_deterministic.2.2.2 [4, 7] [4, 7] 48000 48000 defaultOptions
    defaultOptions rfl rfl rfl
